import Mathlib

/-!
Verification of the referral-dashboard core (`dashboard.py`).

The shallow embedding below translates the three core pieces of the source:
  * `find_all_subordinates` (lines 56-67): the recursive all-downline
    traversal with its depth bound (`st.warning` side effects are made
    explicit as a boolean "warned" flag threaded through the recursion,
    and the shared mutable `all_subs` list becomes explicit state passing);
  * `calculate_metrics` (lines 70-79): the metric aggregation, modelled
    over an untyped row/cell frame so that the `try/except` branch
    (missing columns, non-numeric cells) is representable via `Except`;
  * the per-root report loop of `main` (lines 110-157): date filtering,
    per-name lookup/skip, direct and team aggregation.
-/

namespace Dashboard

/-- One member row of the input table.  Field names translate the
required columns of the source (`手机号`, `推荐人手机号`, `姓名`, `等级`,
`领卡时间`, `直推订单数/金额`, `团队订单数/金额`); the pass-through
self-purchase columns are not used by any aggregation and are omitted. -/
structure Record where
  phone : String
  referrer : String
  name : String
  tier : String
  joinDate : Int
  directOrderCount : Rat
  directOrderAmount : Rat
  teamOrderCount : Rat
  teamOrderAmount : Rat
deriving DecidableEq

/-- `df[df["推荐人手机号"] == user_phone]` (line 62 of the source). -/
def direct_subs (df : List Record) (user_phone : String) : List Record :=
  df.filter (fun r => r.referrer == user_phone)

/-- `find_all_subordinates` (lines 56-67), with the implicit state made
explicit: `all_subs` is the shared accumulator list, `warned` records
whether the depth-limit warning (`st.warning`, line 60) has fired.  The
recursion into each direct subordinate (lines 65-66) mutates the shared
list, which is modelled by folding the state through the children. -/
def find_all_subordinates_aux (df : List Record) (user_phone : String)
    (all_subs : List String) (warned : Bool) (depth max_depth : Nat) :
    List String × Bool :=
  if h : depth > max_depth then
    (all_subs, true)
  else
    let direct := (direct_subs df user_phone).map Record.phone
    if direct.isEmpty then
      (all_subs, warned)
    else
      direct.foldl
        (fun st sub => find_all_subordinates_aux df sub st.1 st.2 (depth + 1) max_depth)
        (all_subs ++ direct, warned)
termination_by max_depth + 1 - depth
decreasing_by omega

/-- Entry point of the traversal: `find_all_subordinates(df, user_phone)`
with the default arguments `all_subs=None` (fresh list), `depth=0`,
`max_depth=100`. -/
def find_all_subordinates (df : List Record) (user_phone : String)
    (max_depth : Nat := 100) : List String × Bool :=
  find_all_subordinates_aux df user_phone [] false 0 max_depth

/-- Structural closed form of the list produced by the traversal when
started at `user_phone` with `fuel = max_depth + 1 - depth` remaining
levels.  Because the accumulator never influences control flow, the
traversal appends exactly this list (proved in
`find_all_subordinates_aux_eq`). -/
def collectSubs (df : List Record) : Nat → String → List String
  | 0, _ => []
  | fuel + 1, user_phone =>
    let direct := (direct_subs df user_phone).map Record.phone
    if direct.isEmpty then []
    else direct ++ (direct.map (collectSubs df fuel)).flatten

/-- Structural closed form of the warned flag: `true` exactly when some
branch of the traversal reaches the depth check with `depth > max_depth`. -/
def hitDepthBound (df : List Record) : Nat → String → Bool
  | 0, _ => true
  | fuel + 1, user_phone =>
    let direct := (direct_subs df user_phone).map Record.phone
    if direct.isEmpty then false
    else direct.any (hitDepthBound df fuel)

/-- `ReachN df p x n`: `x` is the phone of a record reachable from `p` in
exactly `n ≥ 1` referral hops (following `推荐人手机号` edges forward). -/
inductive ReachN (df : List Record) : String → String → Nat → Prop where
  | child {p : String} {r : Record} :
      r ∈ df → r.referrer = p → ReachN df p r.phone 1
  | step {p x : String} {n : Nat} {r : Record} :
      r ∈ df → r.referrer = p → ReachN df r.phone x n → ReachN df p x (n + 1)

/-- No id is referrer-reachable from itself. -/
def Acyclic (df : List Record) : Prop := ∀ x n, ¬ ReachN df x x n

/-- A dynamically typed spreadsheet cell: the columns handled by
`calculate_metrics` hold either labels (等级) or numbers (order
counts/amounts).  Numbers are modelled as exact rationals. -/
inductive Cell where
  | str : String → Cell
  | num : Rat → Cell
deriving DecidableEq

/-- An untyped row: an association list from column name to cell. -/
abbrev Row := List (String × Cell)

/-- Column extraction `df["col"]`.  A row without the column is the
`KeyError` case of the dynamic original, surfaced as `Except.error`. -/
def getCol : List Row → String → Except String (List Cell)
  | [], _ => Except.ok []
  | row :: rest, c =>
    match row.lookup c with
    | none => Except.error ("missing column " ++ c)
    | some v =>
      match getCol rest c with
      | Except.error e => Except.error e
      | Except.ok vs => Except.ok (v :: vs)

/-- Summation of a column, `df["col"].sum()`: fails on a non-numeric
cell (the `TypeError` case of the dynamic original). -/
def sumNums : List Cell → Except String Rat
  | [] => Except.ok 0
  | Cell.num q :: rest =>
    match sumNums rest with
    | Except.error e => Except.error e
    | Except.ok s => Except.ok (q + s)
  | Cell.str _ :: _ => Except.error "non-numeric cell"

/-- `df["col"].sum()` including the column access. -/
def sumCol (df : List Row) (c : String) : Except String Rat :=
  match getCol df c with
  | Except.error e => Except.error e
  | Except.ok vs => sumNums vs

/-- Body of the `try:` block of `calculate_metrics` (lines 71-76):
member count, 黑金卡 count, and the order count/amount sums, with the
source's quirk that the direct columns are used only when
`level == "direct"` and the frame is non-empty. -/
def calculate_metrics_try (df : List Row) (level : String) :
    Except String (Nat × Nat × Rat × Rat) :=
  let sub_count := df.length
  let black :=
    if df.isEmpty then Except.ok 0
    else
      match getCol df "等级" with
      | Except.error e => Except.error e
      | Except.ok col =>
        Except.ok ((col.filter (fun v => v == Cell.str "黑金卡")).length)
  match black with
  | Except.error e => Except.error e
  | Except.ok black_card_count =>
    match
      (if level == "direct" && !df.isEmpty then sumCol df "直推订单数"
       else sumCol df "团队订单数") with
    | Except.error e => Except.error e
    | Except.ok order_count =>
      match
        (if level == "direct" && !df.isEmpty then sumCol df "直推订单金额"
         else sumCol df "团队订单金额") with
      | Except.error e => Except.error e
      | Except.ok order_amount =>
        Except.ok (sub_count, black_card_count, order_count, order_amount)

/-- `calculate_metrics` (lines 70-79): the `except Exception` handler
maps any internal failure to the all-zero tuple. -/
def calculate_metrics (df : List Row) (level : String) : Nat × Nat × Rat × Rat :=
  match calculate_metrics_try df level with
  | Except.ok v => v
  | Except.error _ => (0, 0, 0, 0)

/-- The frame row corresponding to a typed, well-formed member record
(the shape `load_data` guarantees for the aggregated columns). -/
def toRow (r : Record) : Row :=
  [("手机号", Cell.str r.phone), ("推荐人手机号", Cell.str r.referrer),
   ("姓名", Cell.str r.name), ("等级", Cell.str r.tier),
   ("直推订单数", Cell.num r.directOrderCount),
   ("直推订单金额", Cell.num r.directOrderAmount),
   ("团队订单数", Cell.num r.teamOrderCount),
   ("团队订单金额", Cell.num r.teamOrderAmount)]

/-- Date filtering of `main` (lines 110-111):
`df[(df["领卡时间"] >= start) & (df["领卡时间"] <= end)]`. -/
def filter_by_date (df : List Record) (start_date end_date : Int) : List Record :=
  df.filter (fun r => decide (start_date ≤ r.joinDate) && decide (r.joinDate ≤ end_date))

/-- The per-member result dictionary assembled by `main` (lines 143-156). -/
structure UserData where
  name : String
  phone : String
  direct_metrics : Nat × Nat × Rat × Rat
  all_metrics : Nat × Nat × Rat × Rat
  direct_list : List String
  all_list : List String
deriving DecidableEq

/-- One iteration of the per-name loop of `main` (lines 120-157): look the
name up in the filtered frame; `none` models the "跳过无效用户" warning
and `continue` (lines 125-127); otherwise compute the direct subset, the
full downline, and both aggregations. -/
def process_user (filtered : List Record) (name : String) : Option UserData :=
  match filtered.filter (fun r => r.name == name) with
  | [] => none
  | t :: _ =>
    let user_phone := t.phone
    let direct := direct_subs filtered user_phone
    let all_subs_phones := (find_all_subordinates filtered user_phone).1
    let all_subs := filtered.filter (fun r => all_subs_phones.contains r.phone)
    some
      { name := name
        phone := user_phone
        direct_metrics := calculate_metrics (direct.map toRow) "direct"
        all_metrics := calculate_metrics (all_subs.map toRow) "all"
        direct_list := direct.map Record.phone
        all_list := all_subs.map Record.phone }

/-- The whole per-name loop: first component is `all_users_data` in
iteration order, second component collects the names that were skipped
with a warning. -/
def buildReports (filtered : List Record) : List String → List UserData × List String
  | [] => ([], [])
  | name :: rest =>
    let r := buildReports filtered rest
    match process_user filtered name with
    | none => (r.1, name :: r.2)
    | some d => (d :: r.1, r.2)

/-- Fixture record: only the graph fields matter for traversal claims. -/
def mkRec (phone referrer : String) : Record :=
  { phone := phone, referrer := referrer, name := phone, tier := "",
    joinDate := 0, directOrderCount := 0, directOrderAmount := 0,
    teamOrderCount := 0, teamOrderAmount := 0 }

/-- The referrer cycle A→B→C→A of the spec's cycle-safety property. -/
def cycleDf : List Record := [mkRec "A" "C", mkRec "B" "A", mkRec "C" "B"]

/-- Link `i` of a linear referral chain: member `i+1` referred by `i`. -/
def chainRec (i : Nat) : Record := mkRec (Nat.repr (i + 1)) (Nat.repr i)

/-- A linear referral chain `0 → 1 → ⋯ → n` of `n` records. -/
def chainDf (n : Nat) : List Record := (List.range n).map chainRec

/-- Rank certifying that every `chainDf n` is a forest: decimal value of
the member id. -/
def chainRank (s : String) : Nat :=
  s.data.foldl (fun a c => 10 * a + (c.toNat - 48)) 0

/-- A small well-formed forest: a → b, a → c, b → d. -/
def forestDf : List Record := [mkRec "b" "a", mkRec "c" "a", mkRec "d" "b"]

/-- Distance-from-root rank certifying that `forestDf` is a forest. -/
def forestRank (s : String) : Nat :=
  if s = "d" then 2 else if s = "b" then 1 else if s = "c" then 1 else 0

/-- Fixture record with an explicit join date. -/
def mkRecDate (phone referrer : String) (d : Int) : Record :=
  { phone := phone, referrer := referrer, name := phone, tier := "",
    joinDate := d, directOrderCount := 0, directOrderAmount := 0,
    teamOrderCount := 0, teamOrderAmount := 0 }

/-- Root r (in window [0,20]) → child c (out of window) → grandchild g
(in window): the bridge scenario of the filter-before-traverse property. -/
def bridgeDf : List Record :=
  [mkRecDate "r" "" 10, mkRecDate "c" "r" 50, mkRecDate "g" "c" 10]

/-- A one-member universe for the unknown-selected-root scenario. -/
def reportDf : List Record := [mkRec "b" "a"]

/-- A frame whose single row lacks every aggregated column. -/
def badFrame : List Row := [[("手机号", Cell.str "1")]]

/-- Closed form of the traversal: since the accumulated list and the
warned flag never influence control flow, a call at `depth` with bound
`max_depth` appends exactly `collectSubs` at fuel `max_depth + 1 - depth`
and ors the flag with `hitDepthBound`. -/
theorem find_all_subordinates_aux_eq (df : List Record) :
    ∀ (fuel depth max_depth : Nat), max_depth + 1 - depth = fuel →
    ∀ (p : String) (acc : List String) (w : Bool),
    find_all_subordinates_aux df p acc w depth max_depth =
      (acc ++ collectSubs df fuel p, w || hitDepthBound df fuel p) := by
  intro fuel
  induction fuel with
  | zero =>
    intro depth max_depth hfuel p acc w
    rw [find_all_subordinates_aux, dif_pos (by omega)]
    simp [collectSubs, hitDepthBound]
  | succ f ih =>
    intro depth max_depth hfuel p acc w
    have hle : ¬ depth > max_depth := by omega
    rw [find_all_subordinates_aux, dif_neg hle]
    by_cases hd : ((direct_subs df p).map Record.phone).isEmpty
    · rw [if_pos hd]
      simp [collectSubs, hitDepthBound, hd]
    · rw [if_neg hd]
      have hfold : ∀ (l : List String) (acc0 : List String) (w0 : Bool),
          l.foldl
            (fun st sub =>
              find_all_subordinates_aux df sub st.1 st.2 (depth + 1) max_depth)
            (acc0, w0) =
          (acc0 ++ (l.map (collectSubs df f)).flatten,
            w0 || l.any (hitDepthBound df f)) := by
        intro l
        induction l with
        | nil => intro acc0 w0; simp
        | cons s rest ihl =>
          intro acc0 w0
          simp only [List.foldl_cons]
          rw [ih (depth + 1) max_depth (by omega) s acc0 w0, ihl]
          simp [List.append_assoc, Bool.or_assoc]
      rw [hfold]
      simp [collectSubs, hitDepthBound, hd, List.append_assoc]

/-- The traversal entry point in closed form. -/
theorem find_all_subordinates_eq (df : List Record) (p : String) (max_depth : Nat) :
    find_all_subordinates df p max_depth =
      (collectSubs df (max_depth + 1) p, hitDepthBound df (max_depth + 1) p) := by
  rw [find_all_subordinates,
    find_all_subordinates_aux_eq df (max_depth + 1) 0 max_depth (by omega)]
  simp

/-- Membership in the direct-children phone list unpacked to a record. -/
theorem mem_direct_phone {df : List Record} {p x : String} :
    x ∈ (direct_subs df p).map Record.phone ↔
      ∃ r, r ∈ df ∧ r.referrer = p ∧ r.phone = x := by
  simp only [direct_subs, List.mem_map, List.mem_filter, beq_iff_eq]
  constructor
  · rintro ⟨r, ⟨hr, href⟩, hp⟩
    exact ⟨r, hr, href, hp⟩
  · rintro ⟨r, hr, href, hp⟩
    exact ⟨r, ⟨hr, href⟩, hp⟩

theorem ReachN.pos {df : List Record} {p x : String} {n : Nat}
    (h : ReachN df p x n) : 1 ≤ n := by
  induction h with
  | child _ _ => exact le_refl 1
  | step _ _ _ ih => omega

theorem ReachN.phone_mem {df : List Record} {p x : String} {n : Nat}
    (h : ReachN df p x n) : x ∈ df.map Record.phone := by
  induction h with
  | child hr _ => exact List.mem_map.2 ⟨_, hr, rfl⟩
  | step _ _ _ ih => exact ih

theorem ReachN.compose {df : List Record} {p q x : String} {i j : Nat}
    (h₁ : ReachN df p q i) (h₂ : ReachN df q x j) : ReachN df p x (i + j) := by
  induction h₁ with
  | child hr href =>
    rw [Nat.add_comm]
    exact ReachN.step hr href h₂
  | step hr href _ ih =>
    have h := ReachN.step hr href (ih h₂)
    rwa [Nat.add_right_comm] at h

theorem collectSubs_sound {df : List Record} {x p : String} :
    ∀ {fuel : Nat}, x ∈ collectSubs df fuel p →
      ∃ n, ReachN df p x n ∧ n ≤ fuel := by
  intro fuel
  induction fuel generalizing p with
  | zero => intro h; simp [collectSubs] at h
  | succ f ih =>
    intro h
    rw [collectSubs] at h
    by_cases hd : ((direct_subs df p).map Record.phone).isEmpty
    · simp [hd] at h
    · rw [if_neg hd] at h
      rcases List.mem_append.1 h with hdir | hjoin
      · obtain ⟨r, hr, href, hp⟩ := mem_direct_phone.1 hdir
        exact ⟨1, hp ▸ ReachN.child hr href, by omega⟩
      · obtain ⟨L, hL, hxL⟩ := List.mem_flatten.1 hjoin
        obtain ⟨c, hc, rfl⟩ := List.mem_map.1 hL
        obtain ⟨n, hn, hnf⟩ := ih hxL
        obtain ⟨r, hr, href, hp⟩ := mem_direct_phone.1 hc
        exact ⟨n + 1, ReachN.step hr href (hp ▸ hn), by omega⟩

/-- A direct child is in the traversal list at any positive fuel. -/
theorem children_subset_collect {df : List Record} {p x : String} {f : Nat}
    (h : x ∈ (direct_subs df p).map Record.phone) :
    x ∈ collectSubs df (f + 1) p := by
  rw [collectSubs]
  have hne : ¬ ((direct_subs df p).map Record.phone).isEmpty := by
    rw [List.isEmpty_iff]
    exact List.ne_nil_of_mem h
  rw [if_neg hne]
  exact List.mem_append_left _ h

/-- The subtree below a direct child embeds in the parent's list. -/
theorem subtree_subset_collect {df : List Record} {p c x : String} {f : Nat}
    (hc : c ∈ (direct_subs df p).map Record.phone)
    (hx : x ∈ collectSubs df f c) :
    x ∈ collectSubs df (f + 1) p := by
  rw [collectSubs]
  have hne : ¬ ((direct_subs df p).map Record.phone).isEmpty := by
    rw [List.isEmpty_iff]
    exact List.ne_nil_of_mem hc
  rw [if_neg hne]
  refine List.mem_append_right _ (List.mem_flatten.2 ⟨collectSubs df f c, ?_, hx⟩)
  exact List.mem_map.2 ⟨c, hc, rfl⟩

theorem collectSubs_complete {df : List Record} {p x : String} {n : Nat}
    (h : ReachN df p x n) : ∀ {fuel : Nat}, n ≤ fuel → x ∈ collectSubs df fuel p := by
  induction h with
  | @child p r hr href =>
    intro fuel hf
    obtain ⟨f, rfl⟩ : ∃ f, fuel = f + 1 := ⟨fuel - 1, by omega⟩
    exact children_subset_collect (mem_direct_phone.2 ⟨r, hr, href, rfl⟩)
  | @step p x n r hr href htail ih =>
    intro fuel hf
    obtain ⟨f, rfl⟩ : ∃ f, fuel = f + 1 := ⟨fuel - 1, by omega⟩
    exact subtree_subset_collect (mem_direct_phone.2 ⟨r, hr, href, rfl⟩)
      (ih (by omega))

/-- Every element of the traversal list is the phone of a record of the
frame whose referrer was expanded: either the root itself or an element
of the very same list. -/
theorem collectSubs_origin {df : List Record} {x p : String} :
    ∀ {fuel : Nat}, x ∈ collectSubs df fuel p →
      ∃ r, r ∈ df ∧ r.phone = x ∧
        (r.referrer = p ∨ r.referrer ∈ collectSubs df fuel p) := by
  intro fuel
  induction fuel generalizing p with
  | zero => intro h; simp [collectSubs] at h
  | succ f ih =>
    intro h
    rw [collectSubs] at h
    by_cases hd : ((direct_subs df p).map Record.phone).isEmpty
    · simp [hd] at h
    · rw [if_neg hd] at h
      rcases List.mem_append.1 h with hdir | hjoin
      · obtain ⟨r, hr, href, hp⟩ := mem_direct_phone.1 hdir
        exact ⟨r, hr, hp, Or.inl href⟩
      · obtain ⟨L, hL, hxL⟩ := List.mem_flatten.1 hjoin
        obtain ⟨c, hc, rfl⟩ := List.mem_map.1 hL
        obtain ⟨r, hr, hp, hor⟩ := ih hxL
        refine ⟨r, hr, hp, Or.inr ?_⟩
        rcases hor with hrc | hmem
        · exact hrc ▸ children_subset_collect hc
        · exact subtree_subset_collect hc hmem

theorem collectSubs_subset_phones {df : List Record} {x p : String} {fuel : Nat}
    (h : x ∈ collectSubs df fuel p) : x ∈ df.map Record.phone := by
  obtain ⟨n, hn, -⟩ := collectSubs_sound h
  exact hn.phone_mem

/-- Phone numbers identify records when the phone column is duplicate-free. -/
theorem phone_inj {df : List Record} (hnd : (df.map Record.phone).Nodup)
    {r r' : Record} (hr : r ∈ df) (hr' : r' ∈ df)
    (hpp : r.phone = r'.phone) : r = r' :=
  List.inj_on_of_nodup_map hnd hr hr' hpp

/-- Unfolding a reachability path at its last edge. -/
theorem ReachN.last_step {df : List Record} {p x : String} {m : Nat}
    (h : ReachN df p x m) :
    (m = 1 ∧ ∃ r, r ∈ df ∧ r.referrer = p ∧ r.phone = x) ∨
    (∃ y k, 1 ≤ k ∧ m = k + 1 ∧ ReachN df p y k ∧
      ∃ r, r ∈ df ∧ r.referrer = y ∧ r.phone = x) := by
  induction h with
  | @child p r hr href => exact Or.inl ⟨rfl, r, hr, href, rfl⟩
  | @step p x n r hr href htail ih =>
    rcases ih with ⟨rfl, r', hr', href', hp'⟩ | ⟨y, k, hk, rfl, hy, r', hr', href', hp'⟩
    · exact Or.inr ⟨r.phone, 1, le_refl 1, rfl, ReachN.child hr href, r', hr', href', hp'⟩
    · exact Or.inr ⟨y, k + 1, by omega, rfl, ReachN.step hr href hy, r', hr', href', hp'⟩

/-- With a duplicate-free phone column every node has at most one parent,
so two paths ending at the same node coincide backwards: either they have
the same length and the same start, or the longer one passes through the
start of the shorter one. -/
theorem ReachN_unique_path {df : List Record} (hnd : (df.map Record.phone).Nodup) :
    ∀ {n : Nat} {m : Nat} {a b x : String}, ReachN df a x n → ReachN df b x m →
      n ≤ m → (a = b ∧ n = m) ∨ ReachN df b a (m - n) := by
  intro n
  induction n using Nat.strong_induction_on with
  | _ n ih =>
    intro m a b x ha hb hnm
    rcases ha.last_step with ⟨rfl, r, hr, href, hp⟩ |
      ⟨y, k, hk, rfl, hy, r, hr, href, hp⟩
    · rcases hb.last_step with ⟨rfl, r', hr', href', hp'⟩ |
        ⟨y', k', hk', rfl, hy', r', hr', href', hp'⟩
      · have hrr : r = r' := phone_inj hnd hr hr' (hp.trans hp'.symm)
        exact Or.inl ⟨href.symm.trans (hrr ▸ href'), rfl⟩
      · have hrr : r = r' := phone_inj hnd hr hr' (hp.trans hp'.symm)
        have hya : y' = a := href'.symm.trans (hrr ▸ href)
        have hk'' : k' + 1 - 1 = k' := by omega
        exact Or.inr (hk'' ▸ (hya ▸ hy'))
    · rcases hb.last_step with ⟨rfl, r', hr', href', hp'⟩ |
        ⟨y', k', hk', rfl, hy', r', hr', href', hp'⟩
      · omega
      · have hrr : r = r' := phone_inj hnd hr hr' (hp.trans hp'.symm)
        have hyy : y' = y := href'.symm.trans (hrr ▸ href)
        rcases ih k (by omega) hy (hyy ▸ hy') (by omega) with ⟨rfl, rfl⟩ | hstep
        · exact Or.inl ⟨rfl, rfl⟩
        · have harith : k' - k = k' + 1 - (k + 1) := by omega
          exact Or.inr (harith ▸ hstep)

/-- In an acyclic frame with unique phones, nothing referrer-reachable
from one direct child of `p` can itself be a direct child of `p` or lie
in the subtree of a different direct child: each node has a unique
backward chain. -/
theorem no_child_reaches_child {df : List Record}
    (hnd : (df.map Record.phone).Nodup) (hacyc : Acyclic df)
    {p c1 c2 : String} {k : Nat}
    (hc1 : c1 ∈ (direct_subs df p).map Record.phone)
    (hc2 : c2 ∈ (direct_subs df p).map Record.phone)
    (h : ReachN df c2 c1 k) : False := by
  obtain ⟨r1, hr1, href1, hp1⟩ := mem_direct_phone.1 hc1
  obtain ⟨r2, hr2, href2, hp2⟩ := mem_direct_phone.1 hc2
  have hpc2 : ReachN df p c2 1 := hp2 ▸ ReachN.child hr2 href2
  rcases h.last_step with ⟨rfl, r, hr, href, hp⟩ |
    ⟨y, j, hj, rfl, hy, r, hr, href, hp⟩
  · have hrr : r = r1 := phone_inj hnd hr hr1 (hp.trans hp1.symm)
    have hc2p : c2 = p := href.symm.trans (hrr ▸ href1)
    exact hacyc p 1 (hc2p ▸ hpc2)
  · have hrr : r = r1 := phone_inj hnd hr hr1 (hp.trans hp1.symm)
    have hyp : y = p := href.symm.trans (hrr ▸ href1)
    have : ReachN df c2 c2 (j + 1) := ReachN.compose (hyp ▸ hy) hpc2
    exact hacyc c2 (j + 1) this

/-- Subtrees of two distinct direct children are disjoint in an acyclic
frame with unique phones. -/
theorem sibling_disjoint {df : List Record}
    (hnd : (df.map Record.phone).Nodup) (hacyc : Acyclic df)
    {p c1 c2 : String} {f : Nat}
    (hc1 : c1 ∈ (direct_subs df p).map Record.phone)
    (hc2 : c2 ∈ (direct_subs df p).map Record.phone)
    (hne : c1 ≠ c2) :
    List.Disjoint (collectSubs df f c1) (collectSubs df f c2) := by
  intro x hx1 hx2
  obtain ⟨n1, hn1, -⟩ := collectSubs_sound hx1
  obtain ⟨n2, hn2, -⟩ := collectSubs_sound hx2
  rcases Nat.le_total n1 n2 with hle | hle
  · rcases ReachN_unique_path hnd hn1 hn2 hle with ⟨heq, -⟩ | hstep
    · exact hne heq
    · exact no_child_reaches_child hnd hacyc hc1 hc2 hstep
  · rcases ReachN_unique_path hnd hn2 hn1 hle with ⟨heq, -⟩ | hstep
    · exact hne heq.symm
    · exact no_child_reaches_child hnd hacyc hc2 hc1 hstep

/-- A direct child of `p` never reappears inside any child's subtree
(acyclic frame, unique phones). -/
theorem child_not_in_subtree {df : List Record}
    (hnd : (df.map Record.phone).Nodup) (hacyc : Acyclic df)
    {p c x : String} {f : Nat}
    (hx : x ∈ (direct_subs df p).map Record.phone)
    (hc : c ∈ (direct_subs df p).map Record.phone)
    (hsub : x ∈ collectSubs df f c) : False := by
  obtain ⟨n, hn, -⟩ := collectSubs_sound hsub
  exact no_child_reaches_child hnd hacyc hx hc hn

/-- In an acyclic frame with a duplicate-free phone column the traversal
list is duplicate-free, at every fuel. -/
theorem collectSubs_nodup {df : List Record}
    (hnd : (df.map Record.phone).Nodup) (hacyc : Acyclic df) :
    ∀ (fuel : Nat) (p : String), (collectSubs df fuel p).Nodup := by
  intro fuel
  induction fuel with
  | zero => intro p; simp [collectSubs]
  | succ f ih =>
    intro p
    rw [collectSubs]
    by_cases hd : ((direct_subs df p).map Record.phone).isEmpty
    · simp [hd]
    · rw [if_neg hd]
      have hdirnd : ((direct_subs df p).map Record.phone).Nodup := by
        refine List.Nodup.sublist ?_ hnd
        exact List.Sublist.map Record.phone (List.filter_sublist df)
      refine List.nodup_append.2 ⟨hdirnd, ?_, ?_⟩
      refine List.nodup_flatten.2 ⟨?_, ?_⟩
      · intro L hL
        obtain ⟨c, hc, rfl⟩ := List.mem_map.1 hL
        exact ih c
      · rw [List.pairwise_map]
        exact hdirnd.pairwise_of_forall_ne
          (fun c1 hc1 c2 hc2 hne => sibling_disjoint hnd hacyc hc1 hc2 hne)
      · intro x hx hxflat
        obtain ⟨L, hL, hxL⟩ := List.mem_flatten.1 hxflat
        obtain ⟨c, hc, rfl⟩ := List.mem_map.1 hL
        exact child_not_in_subtree hnd hacyc hx hc hxL

/-- A height certificate: a rank function increasing along every
referral edge.  Well-formed forests admit one (distance from the
forest roots), and it forces acyclicity and bounds path lengths. -/
def RankedBy (df : List Record) (rho : String -> Nat) : Prop :=
  forall r, r ∈ df -> rho r.phone = rho r.referrer + 1

theorem RankedBy.reachN_rank {df : List Record} {rho : String -> Nat}
    (hrk : RankedBy df rho) {p x : String} {n : Nat}
    (h : ReachN df p x n) : rho x = rho p + n := by
  induction h with
  | @child p r hr href => rw [hrk r hr, href]
  | @step p x n r hr href htail ih => rw [ih, hrk r hr, href]; omega

theorem RankedBy.acyclic {df : List Record} {rho : String -> Nat}
    (hrk : RankedBy df rho) : Acyclic df := by
  intro x n h
  have hrank := hrk.reachN_rank h
  have := h.pos
  omega

theorem RankedBy.depth_le {df : List Record} {rho : String -> Nat}
    (hrk : RankedBy df rho) {B : Nat} (hB : forall s, rho s ≤ B)
    {p x : String} {n : Nat} (h : ReachN df p x n) : n ≤ B := by
  have hrank := hrk.reachN_rank h
  have := hB x
  omega

/-- Column lookup on a well-formed row, one equation per aggregated column. -/
theorem toRow_lookup_tier (r : Record) :
    (toRow r).lookup "等级" = some (Cell.str r.tier) := rfl

theorem toRow_lookup_directCount (r : Record) :
    (toRow r).lookup "直推订单数" = some (Cell.num r.directOrderCount) := rfl

theorem toRow_lookup_directAmount (r : Record) :
    (toRow r).lookup "直推订单金额" = some (Cell.num r.directOrderAmount) := rfl

theorem toRow_lookup_teamCount (r : Record) :
    (toRow r).lookup "团队订单数" = some (Cell.num r.teamOrderCount) := rfl

theorem toRow_lookup_teamAmount (r : Record) :
    (toRow r).lookup "团队订单金额" = some (Cell.num r.teamOrderAmount) := rfl

/-- Column extraction over well-formed rows never fails and projects the
corresponding record field. -/
theorem getCol_map_toRow {c : String} {f : Record -> Cell}
    (hcol : forall r, (toRow r).lookup c = some (f r)) :
    forall records : List Record,
      getCol (records.map toRow) c = Except.ok (records.map f)
  | [] => rfl
  | r :: rest => by
    rw [List.map_cons, List.map_cons, getCol, hcol r, getCol_map_toRow hcol rest]

/-- Summing a column of numeric cells is exact summation of the fields. -/
theorem sumNums_map_num {g : Record -> Rat} :
    forall records : List Record,
      sumNums (records.map (fun r => Cell.num (g r))) =
        Except.ok ((records.map g).sum)
  | [] => rfl
  | r :: rest => by
    rw [List.map_cons, sumNums, sumNums_map_num rest, List.map_cons, List.sum_cons]

/-- The 黑金卡 row count equals the record-level count. -/
theorem tier_filter_count (records : List Record) :
    ((records.map (fun r => Cell.str r.tier)).filter
        (fun v => v == Cell.str "黑金卡")).length =
      records.countP (fun r => r.tier == "黑金卡") := by
  induction records with
  | nil => rfl
  | cons r rest ih =>
    rw [List.map_cons, List.filter_cons, List.countP_cons]
    by_cases h : r.tier = "黑金卡"
    · simp [h, ih]
    · simp [h, ih]

theorem sumCol_map_toRow {c : String} {f : Record -> Rat}
    (hcol : forall r, (toRow r).lookup c = some (Cell.num (f r)))
    (records : List Record) :
    sumCol (records.map toRow) c = Except.ok ((records.map f).sum) := by
  unfold sumCol
  rw [getCol_map_toRow hcol]
  exact sumNums_map_num records

/-- Value of the `try:` body on a frame of well-formed rows in `direct`
mode: member count, premium-tier count, and the direct-column sums. -/
theorem calculate_metrics_try_toRow_direct (records : List Record) :
    calculate_metrics_try (records.map toRow) "direct" =
      Except.ok (records.length, records.countP (fun r => r.tier == "黑金卡"),
        (records.map Record.directOrderCount).sum,
        (records.map Record.directOrderAmount).sum) := by
  cases records with
  | nil => rfl
  | cons r rest =>
    unfold calculate_metrics_try
    rw [getCol_map_toRow toRow_lookup_tier (r :: rest)]
    have hcond : (("direct" == "direct") && !(List.map toRow (r :: rest)).isEmpty) = true := rfl
    rw [hcond]
    rw [if_pos rfl, if_pos rfl]
    rw [sumCol_map_toRow toRow_lookup_directCount (r :: rest),
      sumCol_map_toRow toRow_lookup_directAmount (r :: rest)]
    simp
    exact tier_filter_count (r :: rest)

/-- Value of the `try:` body on a frame of well-formed rows in team
(`"all"`) mode: member count, premium-tier count, team-column sums. -/
theorem calculate_metrics_try_toRow_all (records : List Record) :
    calculate_metrics_try (records.map toRow) "all" =
      Except.ok (records.length, records.countP (fun r => r.tier == "黑金卡"),
        (records.map Record.teamOrderCount).sum,
        (records.map Record.teamOrderAmount).sum) := by
  cases records with
  | nil => rfl
  | cons r rest =>
    unfold calculate_metrics_try
    rw [getCol_map_toRow toRow_lookup_tier (r :: rest)]
    have hcond : (("all" == "direct") && !(List.map toRow (r :: rest)).isEmpty) = false := rfl
    rw [hcond]
    rw [if_neg (by simp), if_neg (by simp)]
    rw [sumCol_map_toRow toRow_lookup_teamCount (r :: rest),
      sumCol_map_toRow toRow_lookup_teamAmount (r :: rest)]
    simp
    exact tier_filter_count (r :: rest)

theorem chainRec_mem {n i : Nat} (h : i < n) : chainRec i ∈ chainDf n :=
  List.mem_map.2 ⟨i, List.mem_range.2 h, rfl⟩

/-- In the linear chain, member `i+1` is reachable from the root `0` in
exactly `i+1` hops. -/
theorem chain_reach (n : Nat) : ∀ i, i < n →
    ReachN (chainDf n) (Nat.repr 0) (Nat.repr (i + 1)) (i + 1) := by
  intro i
  induction i with
  | zero =>
    intro h
    exact ReachN.child (chainRec_mem h) rfl
  | succ i ih =>
    intro h
    have hedge : ReachN (chainDf n) (Nat.repr (i + 1)) (Nat.repr (i + 2)) 1 :=
      ReachN.child (chainRec_mem h) rfl
    exact ReachN.compose (ih (by omega)) hedge

set_option maxRecDepth 100000 in
/-- One-shot kernel evaluation of the 150-chain traversal: the returned
list is members `1` through `101` and the depth warning fires. -/
theorem chain150_eval :
    find_all_subordinates (chainDf 150) "0" 100 =
      ((List.range 101).map (fun i => Nat.repr (i + 1)), true) := by
  rw [find_all_subordinates_eq]
  decide

set_option maxRecDepth 100000

/-- C1: on the referrer cycle A→B→C→A the all-downline traversal with
`max_depth = 100` terminates (it is a total function evaluated below),
emits the cycle/depth warning, and returns the finite partial result
accumulated so far (101 entries, containing "B") rather than discarding
it; in general, whatever the input, the traversal returns the incoming
accumulator extended by a suffix, never a truncation of it. -/
theorem cycle_traversal_terminates_and_warns :
    ((find_all_subordinates cycleDf "A" 100).2 = true ∧
      (find_all_subordinates cycleDf "A" 100).1.length = 101 ∧
      "B" ∈ (find_all_subordinates cycleDf "A" 100).1) ∧
    ∀ (df : List Record) (p : String) (acc : List String) (w : Bool)
      (depth max_depth : Nat),
      ∃ t, (find_all_subordinates_aux df p acc w depth max_depth).1 = acc ++ t := by
  constructor
  · rw [find_all_subordinates_eq]
    decide
  · intro df p acc w depth max_depth
    refine ⟨collectSubs df (max_depth + 1 - depth) p, ?_⟩
    rw [find_all_subordinates_aux_eq df (max_depth + 1 - depth) depth max_depth rfl]

/-- C2 counterexample: on the cycle A→B→C→A the traversal result is not
duplicate-free — "B" occurs 34 times — because the source keeps no
visited set and re-expands already-collected ids. -/
theorem cycle_traversal_has_duplicates :
    ¬ (find_all_subordinates cycleDf "A" 100).1.Nodup ∧
    (find_all_subordinates cycleDf "A" 100).1.count "B" = 34 := by
  rw [find_all_subordinates_eq]
  decide

/-- C2 (amended): when the input records have pairwise distinct phones
and an acyclic referral graph (a well-formed forest), every id appears
at most once in the traversal result, at any depth bound. -/
theorem traversal_nodup_of_forest (df : List Record) (root : String)
    (max_depth : Nat) (hnd : (df.map Record.phone).Nodup)
    (hacyc : Acyclic df) :
    (find_all_subordinates df root max_depth).1.Nodup := by
  rw [find_all_subordinates_eq]
  exact collectSubs_nodup hnd hacyc _ root

theorem traversal_nodup_of_forest_witness :
    (find_all_subordinates forestDf "a" 100).1.Nodup :=
  traversal_nodup_of_forest forestDf "a" 100 (by decide)
    (RankedBy.acyclic (show RankedBy forestDf forestRank from by unfold RankedBy; decide))

/-- C3 counterexample: with the cycle A→B→C→A leading back to the root,
the traversal result does contain the root id "A" itself. -/
theorem cycle_traversal_contains_root :
    "A" ∈ (find_all_subordinates cycleDf "A" 100).1 := by
  rw [find_all_subordinates_eq]
  decide

/-- C3 (amended): the root id appears in the traversal result only when
a referrer cycle leads from the root back to itself; in particular the
root is never included for acyclic inputs. -/
theorem root_in_traversal_implies_cycle (df : List Record) (root : String)
    (max_depth : Nat)
    (h : root ∈ (find_all_subordinates df root max_depth).1) :
    ∃ n, ReachN df root root n := by
  rw [find_all_subordinates_eq] at h
  obtain ⟨n, hn, -⟩ := collectSubs_sound h
  exact ⟨n, hn⟩

theorem root_in_traversal_implies_cycle_witness :
    ∃ n, ReachN cycleDf "A" "A" n :=
  root_in_traversal_implies_cycle cycleDf "A" 100
    (by rw [find_all_subordinates_eq]; decide)

/-- C4 counterexample: the 150-long linear chain is a well-formed forest
in which member "102" is reachable from the root "0" (in 102 hops), yet
the traversal with the default bound omits it from the result. -/
theorem forest_traversal_misses_deep_node :
    ((chainDf 150).map Record.phone).Nodup ∧ RankedBy (chainDf 150) chainRank ∧
    ReachN (chainDf 150) "0" "102" 102 ∧
    "102" ∉ (find_all_subordinates (chainDf 150) "0" 100).1 := by
  refine ⟨by decide, by unfold RankedBy; decide, ?_, ?_⟩
  · exact chain_reach 150 101 (by omega)
  · rw [chain150_eval]
    decide

/-- C4 (amended): on a well-formed forest (pairwise distinct phones, no
cycles) all of whose nodes lie within `max_depth + 1` referral hops of
the root, the traversal returns exactly the set of nodes transitively
reachable from the root, with no duplicates and without the root. -/
theorem forest_traversal_exact (df : List Record) (root : String)
    (max_depth : Nat) (hnd : (df.map Record.phone).Nodup)
    (hacyc : Acyclic df)
    (hdepth : ∀ x n, ReachN df root x n → n ≤ max_depth + 1) :
    (find_all_subordinates df root max_depth).1.Nodup ∧
    (∀ x, x ∈ (find_all_subordinates df root max_depth).1 ↔
      ∃ n, ReachN df root x n) ∧
    root ∉ (find_all_subordinates df root max_depth).1 := by
  rw [find_all_subordinates_eq]
  refine ⟨collectSubs_nodup hnd hacyc _ root, ?_, ?_⟩
  · intro x
    constructor
    · intro hx
      obtain ⟨n, hn, -⟩ := collectSubs_sound hx
      exact ⟨n, hn⟩
    · rintro ⟨n, hn⟩
      exact collectSubs_complete hn (hdepth x n hn)
  · intro hroot
    obtain ⟨n, hn, -⟩ := collectSubs_sound hroot
    exact hacyc root n hn

theorem forest_traversal_exact_witness :
    (find_all_subordinates forestDf "a" 100).1.Nodup ∧
    (∀ x, x ∈ (find_all_subordinates forestDf "a" 100).1 ↔
      ∃ n, ReachN forestDf "a" x n) ∧
    "a" ∉ (find_all_subordinates forestDf "a" 100).1 := by
  have hrk : RankedBy forestDf forestRank := by unfold RankedBy; decide
  refine forest_traversal_exact forestDf "a" 100 (by decide) hrk.acyclic ?_
  intro x n h
  have hb : ∀ s, forestRank s ≤ 2 := by
    intro s
    unfold forestRank
    split_ifs <;> omega
  have := hrk.depth_le hb h
  omega

/-- C5 counterexample: the 150-long chain with `max_depth = 100` returns
101 nodes, not 100: children are appended while the expanding call's
depth is at most 100, which admits 101 levels. -/
theorem chain_traversal_not_100 :
    ¬ ((find_all_subordinates (chainDf 150) "0" 100).1.length = 100) := by
  rw [chain150_eval]
  simp

/-- C5 (amended): the 150-long chain with `max_depth = 100` returns
exactly 101 nodes (members 1..101) and emits the depth warning; in
general every id in a traversal result lies within `max_depth + 1` hops
of the root, so expansion stops past the bound. -/
theorem chain_traversal_returns_101 :
    ((find_all_subordinates (chainDf 150) "0" 100).1.length = 101 ∧
      (find_all_subordinates (chainDf 150) "0" 100).2 = true) ∧
    ∀ (df : List Record) (p x : String) (max_depth : Nat),
      x ∈ (find_all_subordinates df p max_depth).1 →
      ∃ n, ReachN df p x n ∧ n ≤ max_depth + 1 := by
  constructor
  · rw [chain150_eval]
    constructor
    · simp
    · rfl
  · intro df p x max_depth hx
    rw [find_all_subordinates_eq] at hx
    exact collectSubs_sound hx

theorem chain_traversal_returns_101_witness :
    ∃ n, ReachN cycleDf "A" "B" n ∧ n ≤ 101 :=
  chain_traversal_returns_101.2 cycleDf "A" "B" 100
    (by rw [find_all_subordinates_eq]; decide)

/-- C6: over any record subset, aggregation returns the member count,
the 黑金卡 (premium-tier) count, and — in direct mode — the sums of the
per-record direct order counts/amounts, respectively the team columns in
team ("all") mode. -/
theorem aggregate_totals (records : List Record) :
    calculate_metrics (records.map toRow) "direct" =
      (records.length, records.countP (fun r => r.tier == "黑金卡"),
        (records.map Record.directOrderCount).sum,
        (records.map Record.directOrderAmount).sum) ∧
    calculate_metrics (records.map toRow) "all" =
      (records.length, records.countP (fun r => r.tier == "黑金卡"),
        (records.map Record.teamOrderCount).sum,
        (records.map Record.teamOrderAmount).sum) := by
  constructor
  · unfold calculate_metrics
    rw [calculate_metrics_try_toRow_direct]
  · unfold calculate_metrics
    rw [calculate_metrics_try_toRow_all]

/-- C8: the empty subset produces all-zero totals in every mode, and the
aggregation body itself succeeds (no error is raised, let alone caught). -/
theorem aggregate_empty (level : String) :
    calculate_metrics [] level = (0, 0, 0, 0) ∧
    calculate_metrics_try [] level = Except.ok (0, 0, 0, 0) := by
  have htry : calculate_metrics_try [] level = Except.ok (0, 0, 0, 0) := by
    unfold calculate_metrics_try
    simp [sumCol, getCol, sumNums]
  refine ⟨?_, htry⟩
  unfold calculate_metrics
  rw [htry]

/-- C7: the traversal of `main` runs on the date-filtered universe, so
when every in-window record with the grandchild's phone points at an
out-of-window referrer that is absent from the filtered universe and is
not the root, the grandchild never enters the all-downline result: an
out-of-window member cannot bridge to in-window descendants. -/
theorem filtered_traversal_no_bridge (df : List Record) (s e : Int)
    (root cPhone gPhone : String)
    (hC : ∀ r, r ∈ filter_by_date df s e → r.phone ≠ cPhone)
    (hG : ∀ r, r ∈ filter_by_date df s e → r.phone = gPhone →
      r.referrer = cPhone)
    (hCroot : cPhone ≠ root) :
    gPhone ∉ (find_all_subordinates (filter_by_date df s e) root 100).1 := by
  intro hmem
  rw [find_all_subordinates_eq] at hmem
  obtain ⟨r, hr, hp, hor⟩ := collectSubs_origin hmem
  have href : r.referrer = cPhone := hG r hr hp
  rcases hor with h1 | h2
  · exact hCroot (href.symm.trans h1)
  · have hmem2 := collectSubs_subset_phones h2
    obtain ⟨r', hr', hp'⟩ := List.mem_map.1 hmem2
    exact hC r' hr' (hp'.trans href)

theorem filtered_traversal_no_bridge_witness :
    "g" ∉ (find_all_subordinates (filter_by_date bridgeDf 0 20) "r" 100).1 :=
  filtered_traversal_no_bridge bridgeDf 0 20 "r" "c" "g"
    (by decide) (by decide) (by decide)

/-- C9: a selected name with no record in the filtered universe is
skipped — it lands in the warning list and contributes no report — and
the reports of all other selected names are exactly what they would be
without it. -/
theorem unknown_root_skipped (filtered : List Record) (s1 s2 : List String)
    (name : String) (h : ∀ r, r ∈ filtered → r.name ≠ name) :
    (buildReports filtered (s1 ++ name :: s2)).1 =
      (buildReports filtered (s1 ++ s2)).1 ∧
    name ∈ (buildReports filtered (s1 ++ name :: s2)).2 := by
  have hnone : process_user filtered name = none := by
    unfold process_user
    have hfil : filtered.filter (fun r => r.name == name) = [] := by
      refine List.filter_eq_nil_iff.2 ?_
      intro r hr
      simp [h r hr]
    rw [hfil]
  induction s1 with
  | nil =>
    simp [buildReports, hnone]
  | cons a s1 ih =>
    obtain ⟨ih1, ih2⟩ := ih
    simp only [List.cons_append, buildReports]
    cases hpa : process_user filtered a with
    | none =>
      simp only [hpa]
      exact ⟨ih1, List.mem_cons_of_mem a ih2⟩
    | some d =>
      simp only [hpa]
      exact ⟨congrArg (List.cons d) ih1, ih2⟩

theorem unknown_root_skipped_witness :
    (buildReports reportDf ("ghost" :: ["b"])).1 =
      (buildReports reportDf ["b"]).1 ∧
    "ghost" ∈ (buildReports reportDf ("ghost" :: ["b"])).2 :=
  unknown_root_skipped reportDf [] ["b"] "ghost" (by decide)

/-- C10: `calculate_metrics` never propagates an error — whenever the
aggregation body fails, the handler turns the failure into the all-zero
tuple, indistinguishable from an empty downline. -/
theorem aggregate_error_yields_zeros (df : List Row) (level : String)
    (e : String) (h : calculate_metrics_try df level = Except.error e) :
    calculate_metrics df level = (0, 0, 0, 0) := by
  unfold calculate_metrics
  rw [h]

theorem aggregate_error_yields_zeros_witness :
    calculate_metrics_try badFrame "all" = Except.error "missing column 等级" ∧
    calculate_metrics badFrame "all" = (0, 0, 0, 0) :=
  ⟨rfl, aggregate_error_yields_zeros badFrame "all" "missing column 等级" rfl⟩

end Dashboard
